import Mathlib

/-!
Verification development for the `ssp` snapshot-parsing pipeline.

The Rust source is embedded shallowly: machine integers (`u64`, `u32`, `u8`)
become `Nat` with explicit `% 2 ^ 64` where overflow matters; byte slices
become `List Nat`; fallible code (Rust panics / `Err` returns) becomes
`Option`.  Each definition mirrors one function of the source:

* `src/pubkey.rs`   — `Pubkey`, `TOKEN_PROGRAM`
* `src/parser.rs`   — `AccountHeader`, `parse_octal`, `is_accounts_entry`,
                      the tar-entry loop of `stream_raw`, `parse_accounts`
* `src/filters.rs`  — `ResolvedFilters`, `ResolvedFilters.matches`
* `src/db.rs`       — `build_record_batch` (column contents)
* `src/decoders/token_program/mint.rs` — `MintDecoder` state machine
* `src/decoders/token_program/token_account.rs` — `TokenAccountDecoder.matches`
-/

namespace SSP

/-- A Solana public key: 32 bytes (`src/pubkey.rs`, `struct Pubkey([u8; 32])`).
Bytes are `Nat`s; well-formedness (length 32, bytes < 256) is carried as
hypotheses where needed. -/
abbrev Pubkey := List Nat

/-- `Pubkey::TOKEN_PROGRAM` from `src/pubkey.rs`. -/
def TOKEN_PROGRAM : Pubkey :=
  [6, 221, 246, 225, 215, 101, 161, 147, 217, 203, 225, 70, 206, 235, 121,
   172, 28, 180, 133, 237, 95, 91, 55, 145, 58, 140, 245, 133, 126, 255, 0, 169]

/-! ### Little-endian integer views

`bytemuck::from_bytes` reinterprets packed little-endian bytes as integers;
we model this by explicit little-endian decoding of byte lists. -/

/-- The 8 little-endian bytes of a `u64` value. -/
def toLE64 (n : Nat) : List Nat :=
  [n % 256, n / 2 ^ 8 % 256, n / 2 ^ 16 % 256, n / 2 ^ 24 % 256,
   n / 2 ^ 32 % 256, n / 2 ^ 40 % 256, n / 2 ^ 48 % 256, n / 2 ^ 56 % 256]

/-- Read a little-endian integer from a byte list (most significant last). -/
def fromLE (bs : List Nat) : Nat :=
  bs.foldr (fun b acc => acc * 256 + b) 0

/-- Read the `u64` stored little-endian at byte offset `off`. -/
def readLE64 (bs : List Nat) (off : Nat) : Nat :=
  fromLE ((bs.drop off).take 8)

/-- Read the `u32` stored little-endian at byte offset `off`. -/
def readLE32 (bs : List Nat) (off : Nat) : Nat :=
  fromLE ((bs.drop off).take 4)

/-! ### AccountHeader (`src/parser.rs`) -/

/-- `struct AccountHeader` from `src/parser.rs`: the fixed 136-byte on-wire
record (`#[repr(C)]`, little-endian). -/
structure AccountHeader where
  write_version : Nat
  data_len : Nat
  pubkey : Pubkey
  lamports : Nat
  rent_epoch : Nat
  owner : Pubkey
  executable : Nat
  padding : List Nat
  hash : List Nat
  deriving DecidableEq

/-- `size_of::<AccountHeader>()`: 8 + 8 + 32 + 8 + 8 + 32 + 1 + 7 + 32. -/
def HEADER_SIZE : Nat := 136

/-- `bytemuck::from_bytes::<AccountHeader>` on a 136-byte slice: field-by-field
little-endian reinterpretation at the `#[repr(C)]` offsets. -/
def decodeHeader (bs : List Nat) : AccountHeader :=
  { write_version := readLE64 bs 0
    data_len := readLE64 bs 8
    pubkey := (bs.drop 16).take 32
    lamports := readLE64 bs 48
    rent_epoch := readLE64 bs 56
    owner := (bs.drop 64).take 32
    executable := bs.getD 96 0
    padding := (bs.drop 97).take 7
    hash := (bs.drop 104).take 32 }

/-- The 136-byte wire image of an `AccountHeader` (the layout the archive
producer writes and `bytemuck` reads back). -/
def encodeHeader (h : AccountHeader) : List Nat :=
  toLE64 h.write_version ++ toLE64 h.data_len ++ h.pubkey ++
  toLE64 h.lamports ++ toLE64 h.rent_epoch ++ h.owner ++
  [h.executable] ++ h.padding ++ h.hash

/-- Well-formedness of a header value as a 136-byte record: `u64` fields fit
in 64 bits, the byte-array fields have their declared lengths, and the
`executable` byte fits in 8 bits. -/
def headerWF (h : AccountHeader) : Prop :=
  h.write_version < 2 ^ 64 ∧ h.data_len < 2 ^ 64 ∧ h.pubkey.length = 32 ∧
  h.lamports < 2 ^ 64 ∧ h.rent_epoch < 2 ^ 64 ∧ h.owner.length = 32 ∧
  h.executable < 256 ∧ h.padding.length = 7 ∧ h.hash.length = 32

instance (h : AccountHeader) : Decidable (headerWF h) := by
  unfold headerWF; infer_instance

/-! ### Filters (`src/filters.rs`) -/

/-- `struct ResolvedFilters` from `src/filters.rs`. -/
structure ResolvedFilters where
  owner : Option Pubkey
  hash : Option (List Nat)
  pubkey : Option Pubkey
  include_dead : Bool

/-- `ResolvedFilters::matches` from `src/filters.rs`: reject dead accounts
unless `include_dead`, then require each present field to equal the header
field (`Option::is_none_or`). -/
def ResolvedFilters.matches (f : ResolvedFilters) (h : AccountHeader) : Bool :=
  if !f.include_dead && h.lamports == 0 then
    false
  else
    (f.owner.all fun o => o == h.owner) &&
    (f.hash.all fun x => x == h.hash) &&
    (f.pubkey.all fun pk => pk == h.pubkey)

/-- The filter that accepts every header (all fields absent, keep dead
accounts): used to state parser claims independently of filtering. -/
def matchAll : ResolvedFilters :=
  { owner := none, hash := none, pubkey := none, include_dead := true }

/-! ### Account parsing (`src/parser.rs::parse_accounts`) -/

/-- `(n + 7) & !7` on `usize`: round up to the next multiple of 8 (for values
below `2 ^ 64`, where the bit trick and arithmetic rounding agree). -/
def align8 (n : Nat) : Nat := (n + 7) / 8 * 8

/-- The inner decoder-dispatch loop of `parse_accounts`:
`for &idx in indices { if decoders[idx].matches(..) { decode; break } }`.
Returns the indices whose `decode` is invoked, in invocation order. -/
def dispatchInvoked (matchesAt : Nat → Bool) : List Nat → List Nat
  | [] => []
  | idx :: rest => if matchesAt idx then [idx] else dispatchInvoked matchesAt rest

/-- The observable outcome of `parse_accounts`: the returned header batch, the
final value of `offset`, and — per processed header — its owner, `data_len`
and the decoder indices whose `decode` ran for it. -/
structure ParseOutput where
  batch : List AccountHeader
  offset : Nat
  invoked : List (Pubkey × Nat × List Nat)
  deriving DecidableEq

/-- The `while offset + size_of::<AccountHeader>() <= buf.len()` loop of
`AccountHeader::parse_accounts` (`src/parser.rs`).  `matchers idx` models
`decoders[idx].matches`; `decoder_map` models the owner → indices map.
`none` models the Rust panic when `buf[offset .. offset + data_len]` is out
of range. -/
def parseLoop (buf : List Nat) (f : ResolvedFilters)
    (matchers : Nat → Pubkey → Nat → Bool) (decoder_map : Pubkey → List Nat)
    (offset : Nat) (acc : List AccountHeader)
    (inv : List (Pubkey × Nat × List Nat)) : Option ParseOutput :=
  if hle : offset + HEADER_SIZE ≤ buf.length then
    let header := decodeHeader ((buf.drop offset).take HEADER_SIZE)
    let off1 := offset + HEADER_SIZE
    if off1 + header.data_len ≤ buf.length then
      let off2 := align8 (off1 + header.data_len)
      let inv' := inv ++
        [(header.owner, header.data_len,
          dispatchInvoked (fun idx => matchers idx header.owner header.data_len)
            (decoder_map header.owner))]
      let acc' := if f.matches header then acc ++ [header] else acc
      parseLoop buf f matchers decoder_map off2 acc' inv'
    else
      none
  else
    some ⟨acc, offset, inv⟩
  termination_by buf.length - offset
  decreasing_by
    simp only [align8, HEADER_SIZE] at *
    omega

/-- `AccountHeader::parse_accounts` from `src/parser.rs`, starting at offset 0
with empty accumulators. -/
def parse_accounts (buf : List Nat) (f : ResolvedFilters)
    (matchers : Nat → Pubkey → Nat → Bool)
    (decoder_map : Pubkey → List Nat) : Option ParseOutput :=
  parseLoop buf f matchers decoder_map 0 [] []

/-! ### Tar framing (`src/parser.rs`) -/

/-- `TAR_BLOCK` from `src/parser.rs`. -/
def TAR_BLOCK : Nat := 512

/-- The octal-digit loop of `parse_octal`: `n = n * 8 + (b - b'0')`, breaking
at NUL or space.  `u64` arithmetic is modelled with an explicit `% 2 ^ 64`
(the Rust code never overflows on 12-byte tar size fields); `b - 48` is `Nat`
subtraction, which agrees with `u8` subtraction for ASCII digits. -/
def octalDigits (n : Nat) : List Nat → Nat
  | [] => n
  | b :: rest =>
    if b = 0 ∨ b = 32 then n
    else octalDigits ((n * 8 + (b - 48)) % 2 ^ 64) rest

/-- `parse_octal` from `src/parser.rs`: GNU binary extension when the first
byte has its high bit set (fold the remaining bytes big-endian, `u64`
shifts modelled with `% 2 ^ 64`), otherwise NUL/space-terminated octal. -/
def parse_octal (bytes : List Nat) : Nat :=
  match bytes with
  | [] => octalDigits 0 []
  | b :: rest =>
    if b &&& 0x80 ≠ 0 then
      rest.foldl (fun acc x => ((acc <<< 8) % 2 ^ 64) ||| x) 0
    else
      octalDigits 0 (b :: rest)

/-- The byte string `"accounts/"`. -/
def accountsSlash : List Nat := [97, 99, 99, 111, 117, 110, 116, 115, 47]

/-- `header[..100].windows(9).any(|w| w == b"accounts/")`: scan every
position; a window equals the 9-byte literal iff the 9-byte take at that
position equals it (shorter tails compare unequal by length). -/
def hasAccountsSlash : List Nat → Bool
  | [] => false
  | l@(_ :: rest) => (l.take 9 == accountsSlash) || hasAccountsSlash rest

/-- `is_accounts_entry` from `src/parser.rs`: the type flag (byte 156) must be
`'0'` or NUL, and the 100-byte name field must contain `"accounts/"`. -/
def is_accounts_entry (header : List Nat) : Bool :=
  let type_flag := header.getD 156 0
  if type_flag ≠ 48 ∧ type_flag ≠ 0 then
    false
  else
    hasAccountsSlash (header.take 100)

/-- What one iteration of the `stream_raw` entry loop (`src/parser.rs`) does
with the remaining decompressed stream. -/
inductive StreamAction where
  /-- `break`: the entry loop terminates cleanly. -/
  | halt
  /-- a `read_exact` on entry data fails: the function returns an error. -/
  | abort
  /-- the entry is consumed (`consumed` bytes) and the loop continues;
  `sent` is the payload put on the raw channel for an accounts entry. -/
  | next (consumed : Nat) (sent : Option (List Nat))
  deriving DecidableEq

/-- One iteration of the `loop` in `AccountHeader::stream_raw`
(`src/parser.rs`): read a 512-byte header (`UnexpectedEof` ⇒ `break`),
`break` when `header[0] == 0`, otherwise read the entry's `padded` bytes —
a buffer of `size` bytes plus discarded padding for an accounts entry, or
skipped entirely for any other entry. -/
def streamStep (stream : List Nat) : StreamAction :=
  if stream.length < TAR_BLOCK then
    .halt
  else
    let header := stream.take TAR_BLOCK
    if header.getD 0 1 = 0 then
      .halt
    else
      let size := parse_octal ((header.drop 124).take 12)
      let padded := (size + TAR_BLOCK - 1) / TAR_BLOCK * TAR_BLOCK
      let rest := stream.drop TAR_BLOCK
      if rest.length < padded then
        .abort
      else if is_accounts_entry header then
        .next (TAR_BLOCK + padded) (some (rest.take size))
      else
        .next (TAR_BLOCK + padded) none

/-! ### Accounts record batch (`src/db.rs::build_record_batch`) -/

/-- The column contents of the record batch `build_record_batch` assembles
(`src/db.rs`), one list per Arrow array, in schema order. -/
structure AccountsBatchColumns where
  pubkeys : List Pubkey
  lamports : List Nat
  owners : List Pubkey
  data_lens : List Nat
  executables : List Bool
  rent_epochs : List Nat
  deriving DecidableEq

/-- `build_record_batch` from `src/db.rs`: each column is a straight map over
the header slice; the boolean column is `h.executable == 1`. -/
def build_record_batch (headers : List AccountHeader) : AccountsBatchColumns :=
  { pubkeys := headers.map (·.pubkey)
    lamports := headers.map (·.lamports)
    owners := headers.map (·.owner)
    data_lens := headers.map (·.data_len)
    executables := headers.map (fun h => h.executable == 1)
    rent_epochs := headers.map (·.rent_epoch) }

/-! ### Token-program decoders (`src/decoders/token_program*`) -/

/-- `BATCH_THRESHOLD` from `src/decoders/token_program.rs`. -/
def BATCH_THRESHOLD : Nat := 8192

/-- `Mint::SIZE` (82 bytes). -/
def MINT_SIZE : Nat := 82

/-- `TokenAccount::SIZE` (165 bytes). -/
def TOKEN_ACCOUNT_SIZE : Nat := 165

/-- `MintDecoder::matches` (`src/decoders/token_program/mint.rs`). -/
def MintDecoder.matches (owner : Pubkey) (data_len : Nat) : Bool :=
  owner == TOKEN_PROGRAM && data_len == MINT_SIZE

/-- `TokenAccountDecoder::matches`
(`src/decoders/token_program/token_account.rs`). -/
def TokenAccountDecoder.matches (owner : Pubkey) (data_len : Nat) : Bool :=
  owner == TOKEN_PROGRAM && data_len == TOKEN_ACCOUNT_SIZE

/-- `COptionPubkey` (`src/decoders/token_program.rs`): 4-byte little-endian
tag followed by a 32-byte key. -/
structure COptionPubkey where
  tag : Nat
  value : Pubkey
  deriving DecidableEq

/-- `COptionPubkey::get`: `Some(value)` iff `tag == 1`. -/
def COptionPubkey.get (c : COptionPubkey) : Option Pubkey :=
  if c.tag = 1 then some c.value else none

/-- `Mint` (`src/decoders/token_program.rs`): the 82-byte packed record. -/
structure Mint where
  mint_authority : COptionPubkey
  supply : Nat
  decimals : Nat
  is_initialized : Nat
  freeze_authority : COptionPubkey
  deriving DecidableEq

/-- `bytemuck::from_bytes::<Mint>` on an 82-byte slice: packed `repr(C)`
offsets 0 (mint_authority), 36 (supply), 44 (decimals), 45 (is_initialized),
46 (freeze_authority). -/
def decodeMint (bs : List Nat) : Mint :=
  { mint_authority := ⟨readLE32 bs 0, (bs.drop 4).take 32⟩
    supply := readLE64 bs 36
    decimals := bs.getD 44 0
    is_initialized := bs.getD 45 0
    freeze_authority := ⟨readLE32 bs 46, (bs.drop 50).take 32⟩ }

/-- One row appended by `MintDecoder::decode`: the values pushed into the six
column builders (`src/decoders/token_program/mint.rs`). -/
structure MintRow where
  pubkey : Pubkey
  mint_authority : Option Pubkey
  freeze_authority : Option Pubkey
  supply : Nat
  decimals : Nat
  is_initialized : Bool
  deriving DecidableEq

/-- The mutable state of a `MintDecoder`: the `rows` counter and the rows
accumulated in the column builders (modelled jointly as a row list; Arrow's
`finish()` drains the builders). -/
structure MintDecoderState where
  rows : Nat
  pending : List MintRow
  deriving DecidableEq

/-- `MintDecoder::new()`: zero rows, empty builders. -/
def MintDecoderState.new : MintDecoderState := ⟨0, []⟩

/-- `MintDecoder::build_batch`: nothing when `rows == 0`; otherwise reset the
counter, finish the builders and return the batch. -/
def MintDecoderState.build_batch (s : MintDecoderState) :
    Option (List MintRow) × MintDecoderState :=
  if s.rows = 0 then (none, s) else (some s.pending, ⟨0, []⟩)

/-- The row `MintDecoder::decode` appends for `(pubkey, data)`. -/
def mintRowOf (pubkey : Pubkey) (data : List Nat) : MintRow :=
  let mint := decodeMint data
  { pubkey := pubkey
    mint_authority := mint.mint_authority.get
    freeze_authority := mint.freeze_authority.get
    supply := mint.supply
    decimals := mint.decimals
    is_initialized := mint.is_initialized ≠ 0 }

/-- `MintDecoder::decode` (`src/decoders/token_program/mint.rs`): append one
row, bump the counter, and emit a batch exactly when the counter reaches
`BATCH_THRESHOLD`. -/
def MintDecoderState.decode (s : MintDecoderState) (pubkey : Pubkey)
    (data : List Nat) : Option (List MintRow) × MintDecoderState :=
  let s' : MintDecoderState := ⟨s.rows + 1, s.pending ++ [mintRowOf pubkey data]⟩
  if s'.rows ≥ BATCH_THRESHOLD then s'.build_batch else (none, s')

/-- `MintDecoder::flush`: `build_batch`. -/
def MintDecoderState.flush (s : MintDecoderState) :
    Option (List MintRow) × MintDecoderState :=
  s.build_batch

/-- Run `decode` over a list of `(pubkey, data)` inputs, collecting each
call's emitted batch (if any) in order. -/
def decodeMany (s : MintDecoderState) :
    List (Pubkey × List Nat) → List (Option (List MintRow)) × MintDecoderState
  | [] => ([], s)
  | (pk, d) :: rest =>
    let out := s.decode pk d
    let tail := decodeMany out.2 rest
    (out.1 :: tail.1, tail.2)

/-! ### Record encoding: the PayloadBuffer wire format (§6 of the spec,
produced by the archive writer, consumed by `parse_accounts`) -/

/-- One on-wire account record: header image, `data_len` payload bytes, then
zero padding to the next 8-byte boundary. -/
def encodeRecord (r : AccountHeader × List Nat) : List Nat :=
  encodeHeader r.1 ++ r.2 ++ List.replicate (align8 r.2.length - r.2.length) 0

/-- A PayloadBuffer: concatenated records. -/
def encodeRecords : List (AccountHeader × List Nat) → List Nat
  | [] => []
  | r :: rest => encodeRecord r ++ encodeRecords rest

/-- A record is well-formed when its header is a valid 136-byte record and
its payload has exactly `data_len` bytes. -/
def recordWF (r : AccountHeader × List Nat) : Prop :=
  headerWF r.1 ∧ r.2.length = r.1.data_len

/-! ### Concrete example inputs (used to instantiate the theorems) -/

/-- An all-zero well-formed header with `data_len = 0`. -/
def zeroHeader : AccountHeader :=
  { write_version := 0, data_len := 0, pubkey := List.replicate 32 0
    lamports := 0, rent_epoch := 0, owner := List.replicate 32 0
    executable := 0, padding := List.replicate 7 0, hash := List.replicate 32 0 }

/-- A header whose `executable` byte is 2 (non-zero but not 1). -/
def execTwoHeader : AccountHeader := { zeroHeader with executable := 2 }

/-- A header whose `executable` byte is 1. -/
def execOneHeader : AccountHeader := { zeroHeader with executable := 1 }

/-- A live (non-zero lamports) header. -/
def liveHeader : AccountHeader := { zeroHeader with lamports := 5 }

/-- A header owned by the token program with an 82-byte (mint-sized)
payload. -/
def mintSizedHeader : AccountHeader :=
  { zeroHeader with owner := TOKEN_PROGRAM, data_len := 82, lamports := 1 }

/-- A header that announces 8 payload bytes; used alone it forms a buffer
whose declared payload overruns the end of the buffer. -/
def overrunHeader : AccountHeader := { zeroHeader with data_len := 8 }

/-- The registration-order decoder list of `main.rs` (`MintDecoder` at index
0, `TokenAccountDecoder` at index 1), as indexed `matches` predicates. -/
def builtinMatchers (idx : Nat) (owner : Pubkey) (data_len : Nat) : Bool :=
  if idx = 0 then MintDecoder.matches owner data_len
  else TokenAccountDecoder.matches owner data_len

/-- The owner → decoder-indices map `main.rs` builds for the two built-in
decoders: both register under `TOKEN_PROGRAM`, in registration order. -/
def builtinDecoderMap (owner : Pubkey) : List Nat :=
  if owner == TOKEN_PROGRAM then [0, 1] else []

/-- A 512-byte tar header whose name field starts with `"accounts/"` and
whose type flag (byte 156) is NUL. -/
def accountsTarHeader : List Nat := accountsSlash ++ List.replicate 503 0

/-- A 512-byte block whose first byte is NUL but which is not all zero. -/
def nulNameBlock : List Nat := 0 :: 1 :: List.replicate 510 0

/-! ### Helper lemmas -/

theorem le_align8 (n : Nat) : n ≤ align8 n := by
  unfold align8; omega

theorem align8_mod (n : Nat) : align8 n % 8 = 0 := by
  unfold align8; omega

theorem align8_add_left (a b : Nat) (h : a % 8 = 0) :
    align8 (a + b) = a + align8 b := by
  unfold align8; omega

theorem toLE64_length (n : Nat) : (toLE64 n).length = 8 := rfl

theorem fromLE_toLE64 (n : Nat) (h : n < 2 ^ 64) : fromLE (toLE64 n) = n := by
  simp only [toLE64, fromLE, List.foldr]
  omega

theorem encodeHeader_length (h : AccountHeader) (hw : headerWF h) :
    (encodeHeader h).length = HEADER_SIZE := by
  obtain ⟨-, -, hpk, -, -, how, -, hpad, hhash⟩ := hw
  simp [encodeHeader, toLE64, hpk, how, hpad, hhash, HEADER_SIZE]

theorem encodeRecord_length (r : AccountHeader × List Nat) (hw : recordWF r) :
    (encodeRecord r).length = HEADER_SIZE + align8 r.2.length := by
  have := le_align8 r.2.length
  simp [encodeRecord, encodeHeader_length r.1 hw.1]
  omega

theorem encodeRecord_length_mod (r : AccountHeader × List Nat)
    (hw : recordWF r) : (encodeRecord r).length % 8 = 0 := by
  rw [encodeRecord_length r hw]
  have := align8_mod r.2.length
  simp [HEADER_SIZE]
  omega

/-- Extract the slice `[n, n + m)` out of a concatenation whose prefix has
length `n` and whose middle part has length `m`. -/
theorem sliceAt (bs pre mid suf : List Nat) (n m : Nat)
    (hbs : bs = pre ++ (mid ++ suf)) (hn : pre.length = n)
    (hm : mid.length = m) : (bs.drop n).take m = mid := by
  subst hbs hm
  rw [List.drop_left' hn, List.take_left]

/-- Extract the byte at position `n` out of a concatenation whose prefix has
length `n`. -/
theorem getDAt (bs pre suf : List Nat) (e : Nat) (n d : Nat)
    (hbs : bs = pre ++ (e :: suf)) (hn : pre.length = n) : bs.getD n d = e := by
  subst hbs hn
  induction pre with
  | nil => rfl
  | cons a pre ih => simpa using ih

/-- Reading back the 136-byte wire image of a well-formed header (with any
trailing bytes) recovers the header: the round trip behind the tiling
property. -/
theorem decodeHeader_encodeHeader (h : AccountHeader) (t : List Nat)
    (hw : headerWF h) : decodeHeader (encodeHeader h ++ t) = h := by
  obtain ⟨hwv, hdl, hpk, hlam, hre, how, hex, hpad, hhash⟩ := hw
  obtain ⟨wv, dl, pk, lam, re, ow, ex, pad, hs⟩ := h
  simp only at hwv hdl hpk hlam hre how hex hpad hhash
  unfold decodeHeader readLE64
  simp only [AccountHeader.mk.injEq]
  refine ⟨?_, ?_, ?_, ?_, ?_, ?_, ?_, ?_, ?_⟩
  · rw [sliceAt _ [] (toLE64 wv)
      (toLE64 dl ++ pk ++ toLE64 lam ++ toLE64 re ++ ow ++ [ex] ++ pad ++ hs ++ t)
      0 8 (by simp [encodeHeader]) rfl rfl]
    exact fromLE_toLE64 wv hwv
  · rw [sliceAt _ (toLE64 wv) (toLE64 dl)
      (pk ++ toLE64 lam ++ toLE64 re ++ ow ++ [ex] ++ pad ++ hs ++ t)
      8 8 (by simp [encodeHeader]) rfl rfl]
    exact fromLE_toLE64 dl hdl
  · exact sliceAt _ (toLE64 wv ++ toLE64 dl) pk
      (toLE64 lam ++ toLE64 re ++ ow ++ [ex] ++ pad ++ hs ++ t)
      16 32 (by simp [encodeHeader]) (by simp [toLE64]) hpk
  · rw [sliceAt _ (toLE64 wv ++ toLE64 dl ++ pk) (toLE64 lam)
      (toLE64 re ++ ow ++ [ex] ++ pad ++ hs ++ t)
      48 8 (by simp [encodeHeader]) (by simp [toLE64, hpk]) rfl]
    exact fromLE_toLE64 lam hlam
  · rw [sliceAt _ (toLE64 wv ++ toLE64 dl ++ pk ++ toLE64 lam) (toLE64 re)
      (ow ++ [ex] ++ pad ++ hs ++ t)
      56 8 (by simp [encodeHeader]) (by simp [toLE64, hpk]) rfl]
    exact fromLE_toLE64 re hre
  · exact sliceAt _ (toLE64 wv ++ toLE64 dl ++ pk ++ toLE64 lam ++ toLE64 re) ow
      ([ex] ++ pad ++ hs ++ t)
      64 32 (by simp [encodeHeader]) (by simp [toLE64, hpk]) how
  · exact getDAt _
      (toLE64 wv ++ toLE64 dl ++ pk ++ toLE64 lam ++ toLE64 re ++ ow)
      (pad ++ hs ++ t) ex 96 0 (by simp [encodeHeader])
      (by simp [toLE64, hpk, how])
  · exact sliceAt _
      (toLE64 wv ++ toLE64 dl ++ pk ++ toLE64 lam ++ toLE64 re ++ ow ++ [ex])
      pad (hs ++ t) 97 7 (by simp [encodeHeader])
      (by simp [toLE64, hpk, how]) hpad
  · exact sliceAt _
      (toLE64 wv ++ toLE64 dl ++ pk ++ toLE64 lam ++ toLE64 re ++ ow ++ [ex] ++ pad)
      hs t 104 32 (by simp [encodeHeader]) (by simp [toLE64, hpk, how, hpad])
      hhash

/-- Unfolding `parseLoop` one step when the header fits and its declared
payload fits. -/
theorem parseLoop_step (buf : List Nat) (f : ResolvedFilters)
    (m : Nat → Pubkey → Nat → Bool) (dm : Pubkey → List Nat)
    (offset : Nat) (acc : List AccountHeader) (inv : List (Pubkey × Nat × List Nat))
    (hle : offset + HEADER_SIZE ≤ buf.length) (h : AccountHeader)
    (hh : decodeHeader ((buf.drop offset).take HEADER_SIZE) = h)
    (hd : offset + HEADER_SIZE + h.data_len ≤ buf.length) :
    parseLoop buf f m dm offset acc inv =
      parseLoop buf f m dm (align8 (offset + HEADER_SIZE + h.data_len))
        (if f.matches h then acc ++ [h] else acc)
        (inv ++ [(h.owner, h.data_len,
          dispatchInvoked (fun idx => m idx h.owner h.data_len) (dm h.owner))]) := by
  conv_lhs => rw [parseLoop]
  rw [dif_pos hle]
  simp only [hh]
  rw [if_pos hd]

/-- Unfolding `parseLoop` one step when the header fits but its declared
payload overruns the buffer: the Rust slice panics, modelled as `none`. -/
theorem parseLoop_oob (buf : List Nat) (f : ResolvedFilters)
    (m : Nat → Pubkey → Nat → Bool) (dm : Pubkey → List Nat)
    (offset : Nat) (acc : List AccountHeader) (inv : List (Pubkey × Nat × List Nat))
    (hle : offset + HEADER_SIZE ≤ buf.length) (h : AccountHeader)
    (hh : decodeHeader ((buf.drop offset).take HEADER_SIZE) = h)
    (hd : ¬ (offset + HEADER_SIZE + h.data_len ≤ buf.length)) :
    parseLoop buf f m dm offset acc inv = none := by
  conv_lhs => rw [parseLoop]
  rw [dif_pos hle]
  simp only [hh]
  rw [if_neg hd]

/-- The main tiling computation: running the parse loop from the end of an
arbitrary 8-byte-aligned prefix over an encoded record list consumes the
records one by one, appends exactly the filter-matching headers in order,
dispatches each header once, and ends with `offset` at the end of the
buffer. -/
theorem parseLoop_tiling (f : ResolvedFilters) (m : Nat → Pubkey → Nat → Bool)
    (dm : Pubkey → List Nat) (rs : List (AccountHeader × List Nat))
    (buf₀ : List Nat) (acc : List AccountHeader)
    (inv : List (Pubkey × Nat × List Nat))
    (hmod : buf₀.length % 8 = 0) (hwf : ∀ r ∈ rs, recordWF r) :
    parseLoop (buf₀ ++ encodeRecords rs) f m dm buf₀.length acc inv =
      some ⟨acc ++ (rs.map Prod.fst).filter (fun h => f.matches h),
            (buf₀ ++ encodeRecords rs).length,
            inv ++ rs.map (fun r =>
              (r.1.owner, r.1.data_len,
               dispatchInvoked (fun idx => m idx r.1.owner r.1.data_len)
                 (dm r.1.owner)))⟩ := by
  induction rs generalizing buf₀ acc inv with
  | nil =>
    have hn : ¬ (buf₀.length + HEADER_SIZE ≤ (buf₀ ++ encodeRecords []).length) := by
      simp [encodeRecords, HEADER_SIZE]
    conv_lhs => rw [parseLoop]
    rw [dif_neg hn]
    simp [encodeRecords]
  | cons r rest ih =>
    have hwr : recordWF r := hwf r (List.mem_cons_self r rest)
    have hwrest : ∀ r' ∈ rest, recordWF r' := fun r' hr' => hwf r' (List.mem_cons_of_mem r hr')
    have hlenr : (encodeRecord r).length = HEADER_SIZE + align8 r.2.length :=
      encodeRecord_length r hwr
    have hdlen : r.2.length = r.1.data_len := hwr.2
    have hbuf : buf₀ ++ encodeRecords (r :: rest) = (buf₀ ++ encodeRecord r) ++ encodeRecords rest := by
      simp [encodeRecords, List.append_assoc]
    have hh : decodeHeader (((buf₀ ++ encodeRecords (r :: rest)).drop buf₀.length).take HEADER_SIZE) = r.1 := by
      have h1 : (buf₀ ++ encodeRecords (r :: rest)).drop buf₀.length = encodeRecords (r :: rest) :=
        List.drop_left _ _
      have h2 : encodeRecords (r :: rest) =
          encodeHeader r.1 ++ (r.2 ++ List.replicate (align8 r.2.length - r.2.length) 0 ++ encodeRecords rest) := by
        simp [encodeRecords, encodeRecord, List.append_assoc]
      rw [h1, h2, List.take_left' (encodeHeader_length r.1 hwr.1)]
      have := decodeHeader_encodeHeader r.1 [] hwr.1
      simpa using this
    have hal := le_align8 r.2.length
    have hle : buf₀.length + HEADER_SIZE ≤ (buf₀ ++ encodeRecords (r :: rest)).length := by
      simp only [encodeRecords, List.length_append, hlenr]
      omega
    have hd : buf₀.length + HEADER_SIZE + r.1.data_len ≤ (buf₀ ++ encodeRecords (r :: rest)).length := by
      simp only [encodeRecords, List.length_append, hlenr, ← hdlen]
      omega
    rw [parseLoop_step _ f m dm _ acc inv hle r.1 hh hd]
    have hoff : align8 (buf₀.length + HEADER_SIZE + r.1.data_len) = (buf₀ ++ encodeRecord r).length := by
      rw [← hdlen]
      simp only [List.length_append, hlenr]
      unfold align8 HEADER_SIZE
      omega
    have hmod' : (buf₀ ++ encodeRecord r).length % 8 = 0 := by
      have := encodeRecord_length_mod r hwr
      simp only [List.length_append]
      omega
    rw [hoff, hbuf, ih (buf₀ ++ encodeRecord r) _ _ hmod' hwrest]
    cases hm : f.matches r.1 <;>
      simp [List.filter_cons, hm, List.append_assoc]

theorem parseLoop_batch_filtered (buf : List Nat) (f : ResolvedFilters)
    (m : Nat → Pubkey → Nat → Bool) (dm : Pubkey → List Nat) :
    ∀ (k offset : Nat) (acc : List AccountHeader)
      (inv : List (Pubkey × Nat × List Nat)) (out : ParseOutput),
      buf.length - offset = k →
      parseLoop buf f m dm offset acc inv = some out →
      (∀ hd ∈ acc, f.matches hd = true) →
      ∀ hd ∈ out.batch, f.matches hd = true := by
  intro k
  induction k using Nat.strong_induction_on with
  | _ k ihk =>
    intro offset acc inv out hk hout hacc
    by_cases hle : offset + HEADER_SIZE ≤ buf.length
    · set header := decodeHeader ((buf.drop offset).take HEADER_SIZE) with hH
      by_cases hd : offset + HEADER_SIZE + header.data_len ≤ buf.length
      · rw [parseLoop_step buf f m dm offset acc inv hle header hH.symm hd] at hout
        have hlt : buf.length - align8 (offset + HEADER_SIZE + header.data_len) < k := by
          have := le_align8 (offset + HEADER_SIZE + header.data_len)
          simp only [HEADER_SIZE] at *
          omega
        refine ihk _ hlt _ _ _ _ rfl hout ?_
        intro hd' hmem
        by_cases hm : f.matches header = true
        · rw [if_pos hm] at hmem
          rcases List.mem_append.mp hmem with h1 | h1
          · exact hacc hd' h1
          · have : hd' = header := by simpa using h1
            rw [this]; exact hm
        · rw [if_neg hm] at hmem
          exact hacc hd' hmem
      · rw [parseLoop_oob buf f m dm offset acc inv hle header hH.symm hd] at hout
        exact absurd hout (by simp)
    · rw [parseLoop] at hout
      rw [dif_neg hle] at hout
      have : out = ⟨acc, offset, inv⟩ := (Option.some.inj hout).symm
      rw [this]
      exact fun hd hm => hacc hd hm

theorem parseLoop_invoked_dispatch (buf : List Nat) (f : ResolvedFilters)
    (m : Nat → Pubkey → Nat → Bool) (dm : Pubkey → List Nat) :
    ∀ (k offset : Nat) (acc : List AccountHeader)
      (inv : List (Pubkey × Nat × List Nat)) (out : ParseOutput),
      buf.length - offset = k →
      parseLoop buf f m dm offset acc inv = some out →
      (∀ e ∈ inv, e.2.2 = dispatchInvoked (fun idx => m idx e.1 e.2.1) (dm e.1)) →
      ∀ e ∈ out.invoked, e.2.2 = dispatchInvoked (fun idx => m idx e.1 e.2.1) (dm e.1) := by
  intro k
  induction k using Nat.strong_induction_on with
  | _ k ihk =>
    intro offset acc inv out hk hout hinv
    by_cases hle : offset + HEADER_SIZE ≤ buf.length
    · set header := decodeHeader ((buf.drop offset).take HEADER_SIZE) with hH
      by_cases hd : offset + HEADER_SIZE + header.data_len ≤ buf.length
      · rw [parseLoop_step buf f m dm offset acc inv hle header hH.symm hd] at hout
        have hlt : buf.length - align8 (offset + HEADER_SIZE + header.data_len) < k := by
          have := le_align8 (offset + HEADER_SIZE + header.data_len)
          simp only [HEADER_SIZE] at *
          omega
        refine ihk _ hlt _ _ _ _ rfl hout ?_
        intro e hmem
        rcases List.mem_append.mp hmem with h1 | h1
        · exact hinv e h1
        · have : e = (header.owner, header.data_len,
              dispatchInvoked (fun idx => m idx header.owner header.data_len) (dm header.owner)) := by
            simpa using h1
          rw [this]
      · rw [parseLoop_oob buf f m dm offset acc inv hle header hH.symm hd] at hout
        exact absurd hout (by simp)
    · rw [parseLoop] at hout
      rw [dif_neg hle] at hout
      have : out = ⟨acc, offset, inv⟩ := (Option.some.inj hout).symm
      rw [this]
      exact fun e hm => hinv e hm

theorem dispatchInvoked_eq_find (p : Nat → Bool) (l : List Nat) :
    dispatchInvoked p l = (l.find? p).toList := by
  induction l with
  | nil => rfl
  | cons a rest ih =>
    rw [dispatchInvoked, List.find?]
    by_cases hp : p a = true
    · rw [if_pos hp, hp]; rfl
    · rw [if_neg hp]
      cases hpa : p a
      · simpa using ih
      · exact absurd hpa hp

theorem decode_below_threshold (s : MintDecoderState) (pk : Pubkey) (d : List Nat)
    (h : s.rows + 1 < BATCH_THRESHOLD) :
    s.decode pk d = (none, ⟨s.rows + 1, s.pending ++ [mintRowOf pk d]⟩) := by
  have hT : ¬ BATCH_THRESHOLD ≤ s.rows + 1 := by omega
  simp [MintDecoderState.decode, hT]

theorem decode_at_threshold (s : MintDecoderState) (pk : Pubkey) (d : List Nat)
    (h : s.rows + 1 = BATCH_THRESHOLD) :
    s.decode pk d = (some (s.pending ++ [mintRowOf pk d]), MintDecoderState.new) := by
  have hT : BATCH_THRESHOLD ≤ s.rows + 1 := by omega
  have hNZ : ¬ (s.rows + 1 = 0) := by omega
  simp [MintDecoderState.decode, MintDecoderState.build_batch, hT, hNZ,
    MintDecoderState.new]

theorem decodeMany_below (inputs : List (Pubkey × List Nat)) :
    ∀ s : MintDecoderState, s.rows + inputs.length < BATCH_THRESHOLD →
      decodeMany s inputs = (List.replicate inputs.length none,
        ⟨s.rows + inputs.length, s.pending ++ inputs.map fun p => mintRowOf p.1 p.2⟩) := by
  induction inputs with
  | nil =>
    intro s _
    simp [decodeMany]
  | cons i rest ih =>
    intro s hlt
    obtain ⟨pk, d⟩ := i
    rw [decodeMany]
    rw [decode_below_threshold s pk d (by simp at hlt; omega)]
    rw [ih ⟨s.rows + 1, s.pending ++ [mintRowOf pk d]⟩
      (by show s.rows + 1 + rest.length < BATCH_THRESHOLD; simp at hlt; omega)]
    simp only [List.length_cons, List.map_cons, List.replicate_succ,
      List.append_assoc, List.singleton_append, Prod.mk.injEq,
      MintDecoderState.mk.injEq]
    exact ⟨trivial, by omega, trivial⟩

theorem decodeMany_reach (inputs : List (Pubkey × List Nat)) :
    ∀ s : MintDecoderState, inputs ≠ [] →
      s.rows + inputs.length = BATCH_THRESHOLD →
      decodeMany s inputs =
        (List.replicate (inputs.length - 1) none ++
          [some (s.pending ++ inputs.map fun p => mintRowOf p.1 p.2)],
         MintDecoderState.new) := by
  induction inputs with
  | nil => intro s h; exact absurd rfl h
  | cons i rest ih =>
    intro s _ heq
    obtain ⟨pk, d⟩ := i
    by_cases hr : rest = []
    · subst hr
      rw [decodeMany]
      rw [decode_at_threshold s pk d (by simpa using heq)]
      simp [decodeMany]
    · have hlen : rest.length ≥ 1 := List.length_pos.mpr hr
      rw [decodeMany]
      rw [decode_below_threshold s pk d (by simp at heq; omega)]
      rw [ih ⟨s.rows + 1, s.pending ++ [mintRowOf pk d]⟩ hr
        (by show s.rows + 1 + rest.length = BATCH_THRESHOLD; simp at heq; omega)]
      obtain ⟨n, hn⟩ : ∃ n, rest.length = n + 1 := ⟨rest.length - 1, by omega⟩
      simp only [List.length_cons, List.map_cons, List.append_assoc,
        List.singleton_append, hn, Nat.add_sub_cancel, List.replicate_succ,
        Prod.mk.injEq]
      simp

instance (r : AccountHeader × List Nat) : Decidable (recordWF r) := by
  unfold recordWF; infer_instance

/-- C1 counterexample: a header whose executable byte is 2 (non-zero) gets
`false` in the executable column, because `build_record_batch` tests
`executable == 1`, not `executable != 0`. -/
theorem build_record_batch_executable_cex :
    execTwoHeader.executable ≠ 0 ∧
    (build_record_batch [execTwoHeader]).executables = [false] := by
  constructor
  · decide
  · rfl

/-- C1 (amended): the executable column of the record batch is true for a
header exactly when the header's executable byte equals 1. -/
theorem build_record_batch_executable_iff (hs : List AccountHeader) :
    ∀ p ∈ ((build_record_batch hs).executables).zip hs,
      (p.1 = true ↔ p.2.executable = 1) := by
  have hex : (build_record_batch hs).executables =
      hs.map (fun h => h.executable == 1) := rfl
  rw [hex]
  clear hex
  induction hs with
  | nil => simp
  | cons h rest ih =>
    simp only [List.map_cons, List.zip_cons_cons, List.mem_cons]
    rintro p (rfl | hp)
    · simp
    · exact ih p hp

theorem build_record_batch_executable_iff_witness :
    (true = true ↔ execOneHeader.executable = 1) :=
  build_record_batch_executable_iff [execOneHeader] (true, execOneHeader) (by decide)

/-- C4: the mint decoder accepts exactly (TOKEN_PROGRAM, 82); the
token-account decoder exactly (TOKEN_PROGRAM, 165); the two never both
accept, and for the shared owner a length of 82 or 165 selects exactly one
of them. -/
theorem decoder_matches_spec (o : Pubkey) (l : Nat) :
    (MintDecoder.matches o l = true ↔ o = TOKEN_PROGRAM ∧ l = 82) ∧
    (TokenAccountDecoder.matches o l = true ↔ o = TOKEN_PROGRAM ∧ l = 165) ∧
    ¬ (MintDecoder.matches o l = true ∧ TokenAccountDecoder.matches o l = true) ∧
    ((l = 82 ∨ l = 165) →
      (MintDecoder.matches TOKEN_PROGRAM l = true ↔
        ¬ TokenAccountDecoder.matches TOKEN_PROGRAM l = true)) := by
  refine ⟨?_, ?_, ?_, ?_⟩
  · simp [MintDecoder.matches, MINT_SIZE]
  · simp [TokenAccountDecoder.matches, TOKEN_ACCOUNT_SIZE]
  · simp only [MintDecoder.matches, TokenAccountDecoder.matches,
      Bool.and_eq_true, beq_iff_eq, MINT_SIZE, TOKEN_ACCOUNT_SIZE]
    rintro ⟨⟨-, h82⟩, -, h165⟩
    omega
  · intro hl
    simp only [MintDecoder.matches, TokenAccountDecoder.matches,
      Bool.and_eq_true, beq_iff_eq, MINT_SIZE, TOKEN_ACCOUNT_SIZE]
    rcases hl with h | h <;> subst h <;> simp

theorem decoder_matches_spec_witness :
    MintDecoder.matches TOKEN_PROGRAM 82 = true ↔
      ¬ TokenAccountDecoder.matches TOKEN_PROGRAM 82 = true :=
  (decoder_matches_spec TOKEN_PROGRAM 82).2.2.2 (Or.inl rfl)

/-- C7: the two reference evaluations of the tar size-field parser — octal
ASCII with NUL terminator, and the GNU big-endian binary extension. -/
theorem parse_octal_values :
    parse_octal [48, 48, 48, 48, 48, 48, 48, 48, 49, 52, 52, 0] = 100 ∧
    parse_octal [128, 0, 0, 0, 0, 0, 0, 0, 0, 1, 0, 0] = 65536 := by
  constructor
  · decide
  · decide

/-- C10: a buffer consisting of one complete 136-byte header whose declared
`data_len` (8) exceeds the zero bytes remaining after it makes
`parse_accounts` index out of range: the Rust code panics (modelled as
`none`) instead of ignoring or rejecting the record. -/
theorem parse_accounts_oob_concrete :
    overrunHeader.data_len = 8 ∧
    (encodeHeader overrunHeader).length = HEADER_SIZE ∧
    parse_accounts (encodeHeader overrunHeader) matchAll
      (fun _ _ _ => false) (fun _ => []) = none := by
  have hwf : headerWF overrunHeader := by decide
  have hlen : (encodeHeader overrunHeader).length = HEADER_SIZE :=
    encodeHeader_length _ hwf
  refine ⟨rfl, hlen, ?_⟩
  have hle : 0 + HEADER_SIZE ≤ (encodeHeader overrunHeader).length := by
    rw [hlen]; omega
  have hh : decodeHeader (((encodeHeader overrunHeader).drop 0).take HEADER_SIZE) = overrunHeader := by
    rw [List.drop_zero, ← hlen, List.take_length]
    have := decodeHeader_encodeHeader overrunHeader [] hwf
    simpa using this
  have := parseLoop_oob (encodeHeader overrunHeader) matchAll
    (fun _ _ _ => false) (fun _ => []) 0 [] [] hle overrunHeader hh
    (by rw [hlen]; decide)
  exact this

theorem option_all_beq (o : Option (List Nat)) (v : List Nat) :
    (o.all fun x => x == v) = true ↔ ∀ x ∈ o, x = v := by
  cases o <;> simp [Option.all]

/-- C2: parsing a PayloadBuffer concatenated from well-formed
(header, data, pad-to-8) records, with the match-everything filter and no
decoders, succeeds and returns exactly the encoded headers in order, with
the final offset equal to the buffer length (hence trivially: equal or
leaving a strict remainder below 136). -/
theorem parse_accounts_roundtrip (rs : List (AccountHeader × List Nat))
    (hwf : ∀ r ∈ rs, recordWF r) :
    ∃ out, parse_accounts (encodeRecords rs) matchAll
        (fun _ _ _ => false) (fun _ => []) = some out ∧
      out.batch = rs.map Prod.fst ∧
      (out.offset = (encodeRecords rs).length ∨
       (encodeRecords rs).length - out.offset < HEADER_SIZE) := by
  have hmt : ∀ hd, matchAll.matches hd = true := by
    intro hd; simp [matchAll, ResolvedFilters.matches]
  have h := parseLoop_tiling matchAll (fun _ _ _ => false) (fun _ => [])
    rs [] [] [] (by simp) hwf
  simp only [List.nil_append, List.length_nil] at h
  refine ⟨_, h, ?_, Or.inl rfl⟩
  simp only [List.nil_append]
  exact List.filter_eq_self.mpr fun a _ => hmt a

theorem parse_accounts_roundtrip_witness :
    ∃ out, parse_accounts (encodeRecords [(zeroHeader, [])]) matchAll
        (fun _ _ _ => false) (fun _ => []) = some out ∧
      out.batch = [(zeroHeader, ([] : List Nat))].map Prod.fst ∧
      (out.offset = (encodeRecords [(zeroHeader, [])]).length ∨
       (encodeRecords [(zeroHeader, [])]).length - out.offset < HEADER_SIZE) :=
  parse_accounts_roundtrip [(zeroHeader, [])] (by decide)

/-- C3: a filter matches a header iff (include_dead or lamports nonzero) and
every present optional field equals the corresponding header field; and with
include_dead off, every header in a successful parse batch has nonzero
lamports. -/
theorem filter_matches_spec (f : ResolvedFilters) (h : AccountHeader) :
    (f.matches h = true ↔
      ((f.include_dead = true ∨ h.lamports ≠ 0) ∧
       (∀ o ∈ f.owner, o = h.owner) ∧
       (∀ x ∈ f.hash, x = h.hash) ∧
       (∀ pk ∈ f.pubkey, pk = h.pubkey))) ∧
    (f.include_dead = false →
      ∀ buf m dm out, parse_accounts buf f m dm = some out →
        ∀ hd ∈ out.batch, hd.lamports ≠ 0) := by
  constructor
  · unfold ResolvedFilters.matches
    by_cases hdead : f.include_dead = true
    · simp [hdead, option_all_beq, and_assoc]
    · have hd : f.include_dead = false := by simpa using hdead
      by_cases hl : h.lamports = 0
      · simp [hd, hl]
      · simp [hd, hl, option_all_beq, and_assoc]
  · intro hdead buf m dm out hout hd hmem
    have hmatch := parseLoop_batch_filtered buf f m dm (buf.length - 0)
      0 [] [] out rfl hout (by simp) hd hmem
    intro hl0
    unfold ResolvedFilters.matches at hmatch
    simp [hdead, hl0] at hmatch

theorem filter_matches_spec_witness :
    (⟨none, none, none, false⟩ : ResolvedFilters).matches liveHeader = true :=
  (filter_matches_spec ⟨none, none, none, false⟩ liveHeader).1.mpr
    ⟨Or.inr (by decide), by simp, by simp, by simp⟩

/-- C5: in every successful parse, each processed header's dispatch record
is exactly the first registry index (in registration order) whose `matches`
accepts the header's owner and data length — so at most one decoder's
`decode` is invoked per header. -/
theorem decoder_dispatch_unique (buf : List Nat) (f : ResolvedFilters)
    (m : Nat → Pubkey → Nat → Bool) (dm : Pubkey → List Nat)
    (out : ParseOutput) (hout : parse_accounts buf f m dm = some out) :
    ∀ e ∈ out.invoked,
      e.2.2 = ((dm e.1).find? (fun idx => m idx e.1 e.2.1)).toList ∧
      e.2.2.length ≤ 1 := by
  intro e he
  have hP := parseLoop_invoked_dispatch buf f m dm (buf.length - 0)
    0 [] [] out rfl hout (by simp) e he
  rw [dispatchInvoked_eq_find] at hP
  refine ⟨hP, ?_⟩
  rw [hP]
  cases (dm e.1).find? (fun idx => m idx e.1 e.2.1) <;> simp

theorem decoder_dispatch_unique_witness :
    ([0] : List Nat) =
      ((builtinDecoderMap TOKEN_PROGRAM).find?
        (fun idx => builtinMatchers idx TOKEN_PROGRAM 82)).toList ∧
    ([0] : List Nat).length ≤ 1 := by
  have hout := parseLoop_tiling matchAll builtinMatchers builtinDecoderMap
    [(mintSizedHeader, List.replicate 82 0)] [] [] [] (by simp) (by decide)
  simp only [List.nil_append, List.length_nil] at hout
  exact decoder_dispatch_unique _ _ _ _ _ hout (TOKEN_PROGRAM, 82, [0]) (by decide)

/-- C6: from a fresh mint decoder, fewer than BATCH_THRESHOLD decode calls
all return nothing; exactly BATCH_THRESHOLD calls return (on the last call)
a batch of all the accumulated rows and reset the decoder state; and flush
returns the remaining buffered rows, or nothing when none are buffered. -/
theorem mint_decoder_threshold :
    (∀ inputs : List (Pubkey × List Nat), inputs.length < BATCH_THRESHOLD →
      (decodeMany MintDecoderState.new inputs).1 =
        List.replicate inputs.length none) ∧
    (∀ inputs : List (Pubkey × List Nat), inputs.length = BATCH_THRESHOLD →
      (decodeMany MintDecoderState.new inputs).1 =
        List.replicate (BATCH_THRESHOLD - 1) none ++
          [some (inputs.map fun p => mintRowOf p.1 p.2)] ∧
      (decodeMany MintDecoderState.new inputs).2 = MintDecoderState.new) ∧
    (∀ s : MintDecoderState, s.rows = s.pending.length →
      (s.pending = [] → s.flush = (none, s)) ∧
      (s.pending ≠ [] → s.flush = (some s.pending, MintDecoderState.new))) := by
  refine ⟨?_, ?_, ?_⟩
  · intro inputs hlt
    rw [decodeMany_below inputs MintDecoderState.new
      (by show 0 + inputs.length < BATCH_THRESHOLD; omega)]
  · intro inputs heq
    have hne : inputs ≠ [] := by
      intro h; subst h; simp [BATCH_THRESHOLD] at heq
    rw [decodeMany_reach inputs MintDecoderState.new hne
      (by show 0 + inputs.length = BATCH_THRESHOLD; omega)]
    rw [heq]
    exact ⟨rfl, rfl⟩
  · intro s hsinv
    constructor
    · intro hp
      unfold MintDecoderState.flush MintDecoderState.build_batch
      rw [if_pos (by rw [hsinv, hp]; rfl)]
    · intro hp
      unfold MintDecoderState.flush MintDecoderState.build_batch
      rw [if_neg (by rw [hsinv]; simpa using hp)]
      rfl

theorem mint_decoder_threshold_witness :
    (decodeMany MintDecoderState.new
        (List.replicate BATCH_THRESHOLD (TOKEN_PROGRAM, List.replicate 82 0))).1 =
      List.replicate (BATCH_THRESHOLD - 1) none ++
        [some ((List.replicate BATCH_THRESHOLD
          (TOKEN_PROGRAM, List.replicate 82 0)).map fun p => mintRowOf p.1 p.2)] :=
  (mint_decoder_threshold.2.1 _ (by simp)).1

theorem hasAccountsSlash_iff (l : List Nat) :
    hasAccountsSlash l = true ↔ ∃ i, (l.drop i).take 9 = accountsSlash := by
  induction l with
  | nil =>
    simp only [hasAccountsSlash, Bool.false_eq_true, false_iff]
    rintro ⟨i, hi⟩
    simp [accountsSlash] at hi
  | cons a rest ih =>
    rw [hasAccountsSlash]
    simp only [Bool.or_eq_true, beq_iff_eq, ih]
    constructor
    · rintro (h | ⟨i, hi⟩)
      · exact ⟨0, by simpa using h⟩
      · exact ⟨i + 1, by simpa using hi⟩
    · rintro ⟨i, hi⟩
      cases i with
      | zero => exact Or.inl (by simpa using hi)
      | succ j => exact Or.inr ⟨j, by simpa using hi⟩

/-- C8: a 512-byte tar header is classified as an accounts entry iff the
type-flag byte (offset 156) is ASCII '0' (48) or NUL, and the 100-byte name
field contains the substring "accounts/" at some position. -/
theorem is_accounts_entry_spec (header : List Nat)
    (hlen : header.length = TAR_BLOCK) :
    is_accounts_entry header = true ↔
      ((header.getD 156 0 = 48 ∨ header.getD 156 0 = 0) ∧
       ∃ i, ((header.take 100).drop i).take 9 = accountsSlash) := by
  unfold is_accounts_entry
  by_cases htf : header.getD 156 0 ≠ 48 ∧ header.getD 156 0 ≠ 0
  · rw [if_pos htf]
    simp only [Bool.false_eq_true, false_iff]
    rintro ⟨hor, -⟩
    rcases hor with h | h
    · exact htf.1 h
    · exact htf.2 h
  · rw [if_neg htf, hasAccountsSlash_iff]
    have hdisj : header.getD 156 0 = 48 ∨ header.getD 156 0 = 0 := by tauto
    exact ⟨fun hex => ⟨hdisj, hex⟩, fun h => h.2⟩

set_option maxRecDepth 4000 in
theorem is_accounts_entry_spec_witness :
    is_accounts_entry accountsTarHeader = true :=
  (is_accounts_entry_spec accountsTarHeader (by decide)).mpr
    ⟨Or.inr (by decide), 0, by decide⟩

set_option maxRecDepth 4000 in
/-- C9 counterexample: a 512-byte header block whose first byte is NUL but
whose second byte is 1 is not all zero, yet the entry loop terminates on it
(the code checks only the first name byte). -/
theorem stream_raw_halt_cex :
    streamStep nulNameBlock = StreamAction.halt ∧
    nulNameBlock.length = TAR_BLOCK ∧
    ¬ (∀ b ∈ nulNameBlock, b = 0) := by
  refine ⟨by decide, by decide, by decide⟩

/-- C9 (amended): the entry loop of stream_raw terminates exactly on
end-of-stream (fewer than 512 bytes left at an entry boundary) or on a
header block whose first byte is NUL; on any header with a non-NUL first
byte it either consumes the entry and continues, or aborts on a truncated
entry, but never terminates cleanly. -/
theorem stream_raw_halt_iff (stream : List Nat) :
    streamStep stream = StreamAction.halt ↔
      (stream.length < TAR_BLOCK ∨ stream.getD 0 1 = 0) := by
  unfold streamStep
  by_cases hlen : stream.length < TAR_BLOCK
  · simp [hlen]
  · rw [if_neg hlen]
    have hne : stream ≠ [] := by
      intro h
      subst h
      simp [TAR_BLOCK] at hlen
    obtain ⟨a, t, rfl⟩ := List.exists_cons_of_ne_nil hne
    have hget : ((a :: t).take TAR_BLOCK).getD 0 1 = a := by
      rw [show TAR_BLOCK = 511 + 1 from rfl, List.take_succ_cons]
      rfl
    simp only [hget, List.getD_cons_zero]
    by_cases ha : a = 0
    · simp [ha]
    · rw [if_neg ha]
      have hrhs : ((a :: t).length < TAR_BLOCK ∨ a = 0) ↔ False :=
        ⟨fun h => h.elim (fun h1 => hlen h1) (fun h2 => ha h2), False.elim⟩
      rw [hrhs, iff_false]
      intro hcontra
      revert hcontra
      split
      · exact fun h => StreamAction.noConfusion h
      · split
        · exact fun h => StreamAction.noConfusion h
        · exact fun h => StreamAction.noConfusion h

end SSP
